import Mathlib

/-!
# Verification of the cuecard teleprompter core

Shallow embedding of `src/cuecard-mobile/src-tauri/src/teleprompter.rs`.

Strings are modelled as `List Char` (Rust `&str` viewed as its character
sequence; the regexes in the source operate on UTF-8 text at character
granularity).  Rust `u32` values are modelled by `Nat`: every single parsed
duration is at most `99 * 60 + 99 = 6039`, far below `2^32`, so per-directive
arithmetic never overflows; cumulative sums would need on the order of a
million directives to overflow, at which point the Rust build would panic
(debug) rather than produce a value.

The regular expressions of the source are embedded as hand-written scanners
with the same match semantics (leftmost, non-overlapping, greedy):

* `\[time\s+(\d{1,2}):(\d{2})\]`  — `timeMatchFrom` / `findTime`
* `\[time\s+\d{1,2}:\d{2}\]`      — same match set as the previous one
  (captures do not affect which substrings match), reused for
  `clean_text_for_display`
* `\[note\s+([^\]]+)\]`           — `noteMatchFrom` / `findNote`

`\s` is Rust-regex Unicode whitespace (`White_Space`), the same class used by
`str::trim` and `char::is_whitespace`; `wsChar` lists the code points.  `\d`
is modelled as the ASCII digits `0-9` (the source feeds the captured digits to
`u32::parse`, whose `unwrap_or(0)` makes non-ASCII decimal digits contribute 0;
no claim exercises non-ASCII digits).
-/

/-- Rust `char::is_whitespace` / regex `\s`: the Unicode `White_Space` code
points. -/
def wsChar (c : Char) : Bool :=
  let n := c.toNat
  (0x09 ≤ n && n ≤ 0x0D) || n = 0x20 || n = 0x85 || n = 0xA0 || n = 0x1680 ||
    (0x2000 ≤ n && n ≤ 0x200A) || n = 0x2028 || n = 0x2029 || n = 0x202F ||
    n = 0x205F || n = 0x3000

/-- ASCII digit, the `\d` of the embedded regexes. -/
def isDigitCh (c : Char) : Bool :=
  48 ≤ c.toNat && c.toNat ≤ 57

/-- Numeric value of an ASCII digit. -/
def dval (c : Char) : Nat :=
  c.toNat - 48

/-- `pub struct TeleprompterSegment` of the source: one segment of
teleprompter content.  `text` keeps `[note]` tags and has `[time]` tags
removed; `duration_seconds = none` means "use default speed";
`start_time_seconds` is the cumulative start offset. -/
structure TeleprompterSegment where
  text : List Char
  duration_seconds : Option Nat
  start_time_seconds : Nat
deriving DecidableEq, Repr

/-- `pub struct TeleprompterContent` of the source: the full parse result. -/
structure TeleprompterContent where
  segments : List TeleprompterSegment
  total_duration_seconds : Option Nat
  has_timing : Bool
deriving DecidableEq, Repr

/-- Attempt to match `(\d{1,2}):(\d{2})\]` at the head of the input (the part
of the time regex after `\[time\s+`), returning minutes, seconds and the
remainder after the closing bracket.  `\d{1,2}` is greedy: two digits are
taken when the second character is a digit, and then a `:` must follow (a
digit can never back off to match `:`, so no further backtracking arises). -/
def timeMatchTail : List Char → Option (Nat × Nat × List Char)
  | d1 :: rest =>
    if isDigitCh d1 then
      match rest with
      | d2 :: rest2 =>
        if isDigitCh d2 then
          match rest2 with
          | ':' :: s1 :: s2 :: ']' :: r =>
            if isDigitCh s1 && isDigitCh s2 then
              some (10 * dval d1 + dval d2, 10 * dval s1 + dval s2, r)
            else none
          | _ => none
        else if d2 = ':' then
          match rest2 with
          | s1 :: s2 :: ']' :: r =>
            if isDigitCh s1 && isDigitCh s2 then
              some (dval d1, 10 * dval s1 + dval s2, r)
            else none
          | _ => none
        else none
      | [] => none
    else none
  | [] => none

/-- Attempt to match `\[time\s+(\d{1,2}):(\d{2})\]` at the head of the input.
`\s+` is greedy and whitespace is disjoint from `\d`, so it consumes the
maximal whitespace run, which must be non-empty. -/
def timeMatchFrom : List Char → Option (Nat × Nat × List Char)
  | '[' :: 't' :: 'i' :: 'm' :: 'e' :: rest =>
    if (rest.takeWhile wsChar).isEmpty then none
    else timeMatchTail (rest.dropWhile wsChar)
  | _ => none

/-- Leftmost match of the time regex: the text strictly before the match, the
captured minutes and seconds, and the remainder after the match.  `none` when
the regex matches nowhere in the input. -/
def findTime : List Char → Option (List Char × Nat × Nat × List Char)
  | [] => none
  | c :: rest =>
    match timeMatchFrom (c :: rest) with
    | some (m, s, r) => some ([], m, s, r)
    | none =>
      match findTime rest with
      | some (pre, m, s, r) => some (c :: pre, m, s, r)
      | none => none

/-- `time_pattern.replace_all(text, "")` of `clean_text_for_display`,
written with explicit fuel so that the definition is structurally recursive
(each found match consumes at least eleven characters, so `l.length` steps
always suffice). -/
def removeTimeTagsF : Nat → List Char → List Char
  | 0, l => l
  | fuel + 1, l =>
    match findTime l with
    | some (pre, _, _, r) => pre ++ removeTimeTagsF fuel r
    | none => l

/-- All matches of `\[time\s+\d{1,2}:\d{2}\]` removed, leftmost first. -/
def removeTimeTags (l : List Char) : List Char :=
  removeTimeTagsF l.length l

/-- `str::replace("\r\n", "\n")`: leftmost, non-overlapping. -/
def replaceCRLF : List Char → List Char
  | '\r' :: '\n' :: rest => '\n' :: replaceCRLF rest
  | c :: rest => c :: replaceCRLF rest
  | [] => []

/-- `str::replace("\r", "\n")`: a single-character replacement is a map. -/
def crToLf (l : List Char) : List Char :=
  l.map fun c => if c = '\r' then '\n' else c

/-- `str::trim`: strip `char::is_whitespace` characters from both ends. -/
def trimWs (l : List Char) : List Char :=
  ((l.dropWhile wsChar).reverse.dropWhile wsChar).reverse

/-- `fn clean_text_for_display` of the source: remove `[time]` tags,
normalize line breaks, trim. -/
def clean_text_for_display (text : List Char) : List Char :=
  trimWs (crToLf (replaceCRLF (removeTimeTags text)))

/-- The trailing-text handling after the match loop of
`parse_notes_to_segments` (also used for the body of the loop, which pushes a
segment under the same non-blank guard).  Returns the updated segment list
and the `has_any_timing` flag. -/
def finishRemaining (l : List Char) (pending : Option Nat) (cum : Nat)
    (hasT : Bool) (segs : List TeleprompterSegment) :
    List TeleprompterSegment × Bool :=
  let cleaned := clean_text_for_display l
  if (trimWs cleaned).isEmpty then (segs, hasT)
  else (segs ++ [⟨cleaned, pending, cum⟩], hasT)

/-- The `captures_iter` loop of `parse_notes_to_segments`: for each
leftmost match, clean the text before it, emit a segment when non-blank
(advancing the cumulative clock by the pending duration), then install the
matched duration as the new pending one.  Fuel-structured; every match
strictly shortens the input, so `l.length` steps suffice. -/
def parseLoopF : Nat → List Char → Option Nat → Nat → Bool →
    List TeleprompterSegment → List TeleprompterSegment × Bool
  | 0, l, pending, cum, hasT, segs => finishRemaining l pending cum hasT segs
  | fuel + 1, l, pending, cum, hasT, segs =>
    match findTime l with
    | some (pre, m, s, r) =>
      let cleaned := clean_text_for_display pre
      if (trimWs cleaned).isEmpty then
        parseLoopF fuel r (some (m * 60 + s)) cum true segs
      else
        parseLoopF fuel r (some (m * 60 + s)) (cum + pending.getD 0) true
          (segs ++ [⟨cleaned, pending, cum⟩])
    | none => finishRemaining l pending cum hasT segs

/-- `pub fn parse_notes_to_segments` of the source. -/
def parse_notes_to_segments (notes : List Char) : TeleprompterContent :=
  let r := parseLoopF notes.length notes none 0 false []
  let segs :=
    if r.1.isEmpty && !(trimWs notes).isEmpty then
      [⟨clean_text_for_display notes, none, 0⟩]
    else r.1
  let total :=
    if r.2 && segs.all (fun s => s.duration_seconds.isSome) then
      some (segs.filterMap (fun s => s.duration_seconds)).sum
    else none
  ⟨segs, total, r.2⟩

/-- Attempt to match `\[note\s+([^\]]+)\]` at the head of the input,
returning the captured content and the remainder.  `\s+` greedily takes the
maximal whitespace run `w`; `[^\]]+` then captures everything up to the first
`]`.  When that would leave the capture empty (the character after `w` is
already `]`), the engine backtracks `\s+` by exactly one character — possible
only when `w` has at least two characters — and the capture becomes the last
whitespace character of `w`. -/
def noteMatchFrom : List Char → Option (List Char × List Char)
  | '[' :: 'n' :: 'o' :: 't' :: 'e' :: rest =>
    let w := rest.takeWhile wsChar
    let r1 := rest.dropWhile wsChar
    if w.isEmpty then none
    else
      let content := r1.takeWhile fun c => c ≠ ']'
      match r1.dropWhile (fun c => c ≠ ']') with
      | ']' :: r3 =>
        if content.isEmpty then
          if 2 ≤ w.length then some ([w.getLastD ' '], r3) else none
        else some (content, r3)
      | _ => none
  | _ => none

/-- Leftmost match of the note regex: text before the match, captured
content, remainder after the match. -/
def findNote : List Char → Option (List Char × List Char × List Char)
  | [] => none
  | c :: rest =>
    match noteMatchFrom (c :: rest) with
    | some (content, r) => some ([], content, r)
    | none =>
      match findNote rest with
      | some (pre, content, r) => some (c :: pre, content, r)
      | none => none

/-- The literal text `<note>`. -/
def noteOpen : List Char := ['<', 'n', 'o', 't', 'e', '>']

/-- The literal text `</note>`. -/
def noteClose : List Char := ['<', '/', 'n', 'o', 't', 'e', '>']

/-- The `replace_all` of `format_notes_for_display`: each leftmost match is
replaced by `<note>content</note>` and scanning resumes after the consumed
match (replacement text is never rescanned).  Fuel-structured; every match
strictly shortens the input, so `l.length` steps suffice. -/
def formatLoopF : Nat → List Char → List Char
  | 0, l => l
  | fuel + 1, l =>
    match findNote l with
    | some (pre, content, r) =>
      pre ++ noteOpen ++ content ++ noteClose ++ formatLoopF fuel r
    | none => l

/-- `pub fn format_notes_for_display` of the source. -/
def format_notes_for_display (text : List Char) : List Char :=
  formatLoopF text.length text

/-- `pub fn calculate_scroll_speed` of the source.  The Rust `f32` arguments
and result are modelled by `ℚ` with exact division; the `u32` duration by
`Nat`.  The match structure is the source's:
`Some(duration) if duration > 0 => segment_height / duration as f32`,
otherwise `default_speed`. -/
def calculate_scroll_speed (segment_height : ℚ) (duration_seconds : Option Nat)
    (default_speed : ℚ) : ℚ :=
  match duration_seconds with
  | some duration => if 0 < duration then segment_height / (duration : ℚ)
    else default_speed
  | none => default_speed

/-- Sum of the segment durations, an absent duration counting as 0.  This is
the quantity the cumulative clock of the parser tracks. -/
def durSum (segs : List TeleprompterSegment) : Nat :=
  (segs.map fun s => s.duration_seconds.getD 0).sum

/-- `startsFrom base segs`: each segment's start time is `base` plus the
durations of the segments before it in `segs`. -/
def startsFrom : Nat → List TeleprompterSegment → Prop
  | _, [] => True
  | base, s :: rest =>
    s.start_time_seconds = base ∧
      startsFrom (base + s.duration_seconds.getD 0) rest

/-- A duration value coming from the parser is at most `99 * 60 + 99`. -/
def durOk (o : Option Nat) : Prop := ∀ d, o = some d → d ≤ 6039

/-! ## Whitespace and trimming lemmas -/

/-- A character is blank-compatible after CR normalization exactly when it was
before: mapping `\r` to `\n` stays inside the whitespace class. -/
theorem wsChar_crMap (c : Char) :
    wsChar (if c = '\r' then '\n' else c) = wsChar c := by
  split
  · rename_i h
    subst h
    decide
  · rfl

/-- `crToLf` preserves all-whitespace status. -/
theorem crToLf_allWs (l : List Char) :
    (∀ c ∈ crToLf l, wsChar c) ↔ (∀ c ∈ l, wsChar c) := by
  unfold crToLf
  rw [List.forall_mem_map]
  constructor
  · intro h c hc
    have := h c hc
    rwa [wsChar_crMap] at this
  · intro h c hc
    rw [wsChar_crMap]
    exact h c hc

/-- `replaceCRLF` preserves all-whitespace status. -/
theorem replaceCRLF_allWs (l : List Char) :
    (∀ c ∈ replaceCRLF l, wsChar c) ↔ (∀ c ∈ l, wsChar c) := by
  induction l using replaceCRLF.induct with
  | case1 rest ih =>
    rw [replaceCRLF]
    simp only [List.mem_cons, forall_eq_or_imp]
    constructor
    · intro h
      exact ⟨by decide, by decide, (ih.mp h.2)⟩
    · intro h
      exact ⟨by decide, ih.mpr h.2.2⟩
  | case2 c rest hne ih =>
    rw [replaceCRLF]
    · simp only [List.mem_cons, forall_eq_or_imp]
      exact ⟨fun h => ⟨h.1, ih.mp h.2⟩, fun h => ⟨h.1, ih.mpr h.2⟩⟩
    · exact hne
  | case3 => simp [replaceCRLF]

/-- The trimmed text is empty exactly when every character is whitespace. -/
theorem trimWs_isEmpty_iff (l : List Char) :
    (trimWs l).isEmpty = true ↔ ∀ c ∈ l, wsChar c := by
  unfold trimWs
  rw [List.isEmpty_iff, List.reverse_eq_nil_iff, List.dropWhile_eq_nil_iff]
  constructor
  · intro h c hc
    have hsplit := List.takeWhile_append_dropWhile (p := wsChar) (l := l)
    rw [← hsplit] at hc
    rcases List.mem_append.mp hc with h1 | h1
    · exact List.mem_takeWhile_imp h1
    · exact h c (List.mem_reverse.mpr h1)
  · intro h c hc
    have : c ∈ l.dropWhile wsChar := List.mem_reverse.mp hc
    have hsplit := List.takeWhile_append_dropWhile (p := wsChar) (l := l)
    exact h c (by rw [← hsplit]; exact List.mem_append.mpr (Or.inr this))

/-- Characters of the trimmed list come from the original list. -/
theorem mem_of_mem_trimWs {c : Char} {l : List Char} (h : c ∈ trimWs l) :
    c ∈ l := by
  unfold trimWs at h
  rw [List.mem_reverse] at h
  have h1 : c ∈ (l.dropWhile wsChar).reverse :=
    (List.dropWhile_sublist wsChar).mem h
  rw [List.mem_reverse] at h1
  exact (List.dropWhile_sublist wsChar).mem h1

/-- Every character of a list is either kept by trimming or is whitespace. -/
theorem mem_trimWs_or_ws {c : Char} {l : List Char} (h : c ∈ l) :
    c ∈ trimWs l ∨ wsChar c = true := by
  by_cases hw : wsChar c = true
  · exact Or.inr hw
  · left
    unfold trimWs
    rw [List.mem_reverse]
    have h1 : c ∈ l.dropWhile wsChar := by
      have hsplit := List.takeWhile_append_dropWhile (p := wsChar) (l := l)
      rw [← hsplit] at h
      rcases List.mem_append.mp h with h2 | h2
      · exact absurd (List.mem_takeWhile_imp h2) hw
      · exact h2
    have h2 : c ∈ (l.dropWhile wsChar).reverse := List.mem_reverse.mpr h1
    have hsplit := List.takeWhile_append_dropWhile (p := wsChar)
      (l := (l.dropWhile wsChar).reverse)
    rw [← hsplit] at h2
    rcases List.mem_append.mp h2 with h3 | h3
    · exact absurd (List.mem_takeWhile_imp h3) hw
    · exact h3

/-- Trimming does not change whether the text is all-whitespace. -/
theorem trimWs_allWs_iff (l : List Char) :
    (∀ c ∈ trimWs l, wsChar c) ↔ ∀ c ∈ l, wsChar c := by
  constructor
  · intro h c hc
    rcases mem_trimWs_or_ws hc with h1 | h1
    · exact h c h1
    · exact h1
  · intro h c hc
    exact h c (mem_of_mem_trimWs hc)

/-- The blank test applied to cleaned text sees exactly whether the input
with its time tags removed is all-whitespace (line-break normalization and
trimming cannot change that). -/
theorem clean_blank_iff (x : List Char) :
    (trimWs (clean_text_for_display x)).isEmpty = true ↔
      ∀ c ∈ removeTimeTags x, wsChar c := by
  unfold clean_text_for_display
  rw [trimWs_isEmpty_iff, trimWs_allWs_iff, crToLf_allWs, replaceCRLF_allWs]

/-! ## Behaviour when the input has no timing directive -/

/-- When the time regex matches nowhere, tag removal is the identity. -/
theorem removeTimeTags_of_none {l : List Char} (h : findTime l = none) :
    removeTimeTags l = l := by
  unfold removeTimeTags
  rcases hn : l.length with _ | n
  · rfl
  · simp [removeTimeTagsF, h]

/-- When the time regex matches nowhere, the parse loop reduces to the
trailing-text handling, independently of the fuel. -/
theorem parseLoopF_of_none (fuel : Nat) (l : List Char) (p : Option Nat)
    (cum : Nat) (hasT : Bool) (segs : List TeleprompterSegment)
    (h : findTime l = none) :
    parseLoopF fuel l p cum hasT segs = finishRemaining l p cum hasT segs := by
  cases fuel
  · rfl
  · simp [parseLoopF, h]

/-- C6.  An input in which the `[time MM:SS]` pattern occurs nowhere parses to
zero segments (`has_timing = false`, no total) when it is all whitespace, and
otherwise to exactly one segment holding the cleaned input, with no duration
and start time 0, `has_timing = false`. -/
theorem parse_without_directives (notes : List Char)
    (h : findTime notes = none) :
    parse_notes_to_segments notes =
      if notes.all wsChar then ⟨[], none, false⟩
      else ⟨[⟨clean_text_for_display notes, none, 0⟩], none, false⟩ := by
  by_cases hb : ∀ c ∈ notes, wsChar c
  · have hg : (trimWs (clean_text_for_display notes)).isEmpty = true := by
      rw [clean_blank_iff, removeTimeTags_of_none h]
      exact hb
    have hg2 : (trimWs notes).isEmpty = true := (trimWs_isEmpty_iff notes).mpr hb
    have hall : notes.all wsChar = true := List.all_eq_true.mpr hb
    simp [parse_notes_to_segments, parseLoopF_of_none _ _ _ _ _ _ h,
      finishRemaining, hg, hg2, hall]
  · have hg : (trimWs (clean_text_for_display notes)).isEmpty = false := by
      rw [Bool.eq_false_iff]
      intro hc
      rw [clean_blank_iff, removeTimeTags_of_none h] at hc
      exact hb hc
    have hall : notes.all wsChar = false := by
      rw [Bool.eq_false_iff]
      intro hc
      exact hb (List.all_eq_true.mp hc)
    simp [parse_notes_to_segments, parseLoopF_of_none _ _ _ _ _ _ h,
      finishRemaining, hg, hall]

/-- Witness for C6 at the concrete non-blank input `"Hi"`. -/
theorem parse_without_directives_witness :
    parse_notes_to_segments ("Hi".toList) =
      ⟨[⟨"Hi".toList, none, 0⟩], none, false⟩ := by
  have h := parse_without_directives ("Hi".toList) (by decide)
  rw [h, if_neg (by decide)]
  decide

/-! ## Cumulative start times (C2) -/

theorem durSum_append (l1 l2 : List TeleprompterSegment) :
    durSum (l1 ++ l2) = durSum l1 + durSum l2 := by
  simp [durSum]

theorem startsFrom_append {l1 l2 : List TeleprompterSegment} :
    ∀ {b : Nat}, startsFrom b l1 → startsFrom (b + durSum l1) l2 →
      startsFrom b (l1 ++ l2) := by
  induction l1 with
  | nil => intro b _ h2; simpa [durSum] using h2
  | cons s t ih =>
    intro b h1 h2
    refine ⟨h1.1, ih h1.2 ?_⟩
    have : b + durSum (s :: t) =
        b + s.duration_seconds.getD 0 + durSum t := by
      simp [durSum]; omega
    rwa [this] at h2

theorem finishRemaining_startsFrom (l : List Char) (p : Option Nat)
    (cum : Nat) (hasT : Bool) (segs : List TeleprompterSegment)
    (h : startsFrom 0 segs) (hc : cum = durSum segs) :
    startsFrom 0 (finishRemaining l p cum hasT segs).1 := by
  simp only [finishRemaining]
  split
  · exact h
  · subst hc
    exact startsFrom_append h (by simp [startsFrom])

theorem parseLoopF_startsFrom (fuel : Nat) :
    ∀ (l : List Char) (p : Option Nat) (cum : Nat) (hasT : Bool)
      (segs : List TeleprompterSegment),
      startsFrom 0 segs → cum = durSum segs →
      startsFrom 0 (parseLoopF fuel l p cum hasT segs).1 := by
  induction fuel with
  | zero =>
    intro l p cum hasT segs h hc
    exact finishRemaining_startsFrom l p cum hasT segs h hc
  | succ n ih =>
    intro l p cum hasT segs h hc
    rw [parseLoopF]
    cases hft : findTime l with
    | none =>
      simp only
      exact finishRemaining_startsFrom l p cum hasT segs h hc
    | some x =>
      obtain ⟨pre, m, s, r⟩ := x
      simp only
      split
      · exact ih r _ cum true segs h hc
      · apply ih
        · subst hc
          exact startsFrom_append h (by simp [startsFrom])
        · subst hc
          rw [durSum_append]
          simp [durSum]

theorem parse_startsFrom (notes : List Char) :
    startsFrom 0 (parse_notes_to_segments notes).segments := by
  simp only [parse_notes_to_segments]
  split
  · exact ⟨rfl, trivial⟩
  · exact parseLoopF_startsFrom notes.length notes none 0 false [] trivial rfl

theorem startsFrom_getD (d : TeleprompterSegment) :
    ∀ (l : List TeleprompterSegment) (b : Nat), startsFrom b l →
      ∀ i, i < l.length →
        (l.getD i d).start_time_seconds = b + durSum (l.take i) := by
  intro l
  induction l with
  | nil => intro b _ i hi; simp at hi
  | cons s rest ih =>
    intro b h i hi
    cases i with
    | zero => simpa [durSum] using h.1
    | succ n =>
      have h2 := ih (b + s.duration_seconds.getD 0) h.2 n (by simpa using hi)
      show (rest.getD n d).start_time_seconds = _
      rw [h2, List.take_succ_cons]
      simp [durSum]
      omega

theorem durSum_take_le (m : List TeleprompterSegment) (i : Nat) :
    durSum (m.take i) ≤ durSum m := by
  conv_rhs => rw [← List.take_append_drop i m]
  rw [durSum_append]
  omega

set_option maxRecDepth 40000

/-- C2.  Every segment's start time equals the sum of the durations (absent
counting as 0) of all strictly preceding segments; consequently start times
are non-decreasing along the sequence. -/
theorem parse_start_times (notes : List Char) :
    (∀ i, i < (parse_notes_to_segments notes).segments.length →
      ((parse_notes_to_segments notes).segments.getD i
        ⟨[], none, 0⟩).start_time_seconds =
      durSum ((parse_notes_to_segments notes).segments.take i)) ∧
    (∀ i j, i ≤ j → j < (parse_notes_to_segments notes).segments.length →
      ((parse_notes_to_segments notes).segments.getD i
        ⟨[], none, 0⟩).start_time_seconds ≤
      ((parse_notes_to_segments notes).segments.getD j
        ⟨[], none, 0⟩).start_time_seconds) := by
  have hs := parse_startsFrom notes
  have key : ∀ i, i < (parse_notes_to_segments notes).segments.length →
      ((parse_notes_to_segments notes).segments.getD i
        ⟨[], none, 0⟩).start_time_seconds =
      durSum ((parse_notes_to_segments notes).segments.take i) := by
    intro i hi
    have h := startsFrom_getD ⟨[], none, 0⟩ _ 0 hs i hi
    simpa using h
  refine ⟨key, ?_⟩
  intro i j hij hj
  rw [key i (lt_of_le_of_lt hij hj), key j hj]
  have h1 : (parse_notes_to_segments notes).segments.take i =
      ((parse_notes_to_segments notes).segments.take j).take i := by
    rw [List.take_take]
    congr 1
    omega
  rw [h1]
  exact durSum_take_le _ i

/-- Witness for C2 at a concrete two-segment input: the second segment starts
after the first segment's 10-second duration. -/
theorem parse_start_times_witness :
    1 < (parse_notes_to_segments
      ("[time 00:10]a[time 00:20]b".toList)).segments.length ∧
    ((parse_notes_to_segments
      ("[time 00:10]a[time 00:20]b".toList)).segments.getD 1
        ⟨[], none, 0⟩).start_time_seconds =
    durSum ((parse_notes_to_segments
      ("[time 00:10]a[time 00:20]b".toList)).segments.take 1) :=
  ⟨by decide,
    (parse_start_times ("[time 00:10]a[time 00:20]b".toList)).1 1 (by decide)⟩

/-! ## Bounded durations (C10) -/

theorem dval_le_9 {c : Char} (h : isDigitCh c = true) : dval c ≤ 9 := by
  simp only [isDigitCh, Bool.and_eq_true, decide_eq_true_eq] at h
  unfold dval
  omega

/-- The digit grammar bounds each captured component: at most two digits for
the minutes and exactly two for the seconds, so both values are below 100. -/
theorem timeMatchTail_bounds {l : List Char} {m s : Nat} {r : List Char}
    (h : timeMatchTail l = some (m, s, r)) : m ≤ 99 ∧ s ≤ 99 := by
  rcases l with _ | ⟨d1, rest⟩
  · simp [timeMatchTail] at h
  · simp only [timeMatchTail.eq_def] at h
    by_cases hd1 : isDigitCh d1 = true
    · rw [if_pos hd1] at h
      rcases rest with _ | ⟨d2, rest2⟩
      · simp at h
      · simp only at h
        by_cases hd2 : isDigitCh d2 = true
        · rw [if_pos hd2] at h
          split at h
          · split at h
            · rename_i hds
              rw [Bool.and_eq_true] at hds
              obtain ⟨hb1, hb2⟩ := hds
              simp only [Option.some.injEq, Prod.mk.injEq] at h
              obtain ⟨hm, hs, -⟩ := h
              have b1 := dval_le_9 hd1
              have b2 := dval_le_9 hd2
              have b3 := dval_le_9 hb1
              have b4 := dval_le_9 hb2
              omega
            · simp at h
          · simp at h
        · rw [if_neg hd2] at h
          by_cases hcolon : d2 = ':'
          · rw [if_pos hcolon] at h
            split at h
            · split at h
              · rename_i hds
                rw [Bool.and_eq_true] at hds
                obtain ⟨hb1, hb2⟩ := hds
                simp only [Option.some.injEq, Prod.mk.injEq] at h
                obtain ⟨hm, hs, -⟩ := h
                have b1 := dval_le_9 hd1
                have b3 := dval_le_9 hb1
                have b4 := dval_le_9 hb2
                omega
              · simp at h
            · simp at h
          · rw [if_neg hcolon] at h
            simp at h
    · rw [if_neg hd1] at h
      exact absurd h (by simp)

theorem timeMatchFrom_bounds {l : List Char} {m s : Nat} {r : List Char}
    (h : timeMatchFrom l = some (m, s, r)) : m ≤ 99 ∧ s ≤ 99 := by
  rw [timeMatchFrom.eq_def] at h
  split at h
  · split at h
    · simp at h
    · exact timeMatchTail_bounds h
  · simp at h

theorem findTime_bounds : ∀ {l pre : List Char} {m s : Nat} {r : List Char},
    findTime l = some (pre, m, s, r) → m ≤ 99 ∧ s ≤ 99 := by
  intro l
  induction l with
  | nil => intro pre m s r h; simp [findTime] at h
  | cons c rest ih =>
    intro pre m s r h
    rw [findTime] at h
    cases htm : timeMatchFrom (c :: rest) with
    | some x =>
      obtain ⟨m', s', r'⟩ := x
      rw [htm] at h
      simp only [Option.some.injEq, Prod.mk.injEq] at h
      obtain ⟨-, hm, hs, -⟩ := h
      subst hm
      subst hs
      exact timeMatchFrom_bounds htm
    | none =>
      rw [htm] at h
      cases hft : findTime rest with
      | some y =>
        obtain ⟨pre', m', s', r'⟩ := y
        rw [hft] at h
        simp only [Option.some.injEq, Prod.mk.injEq] at h
        obtain ⟨-, hm, hs, -⟩ := h
        subst hm
        subst hs
        exact ih hft
      | none =>
        rw [hft] at h
        simp at h

theorem finishRemaining_durOk (l : List Char) (p : Option Nat) (cum : Nat)
    (hasT : Bool) (segs : List TeleprompterSegment) (hp : durOk p)
    (hs : ∀ s ∈ segs, durOk s.duration_seconds) :
    ∀ s ∈ (finishRemaining l p cum hasT segs).1, durOk s.duration_seconds := by
  simp only [finishRemaining]
  split
  · exact hs
  · intro s hmem
    rcases List.mem_append.mp hmem with h1 | h1
    · exact hs s h1
    · simp at h1
      subst h1
      exact hp

theorem parseLoopF_durOk (fuel : Nat) :
    ∀ (l : List Char) (p : Option Nat) (cum : Nat) (hasT : Bool)
      (segs : List TeleprompterSegment), durOk p →
      (∀ s ∈ segs, durOk s.duration_seconds) →
      ∀ s ∈ (parseLoopF fuel l p cum hasT segs).1, durOk s.duration_seconds := by
  induction fuel with
  | zero =>
    intro l p cum hasT segs hp hs
    exact finishRemaining_durOk l p cum hasT segs hp hs
  | succ n ih =>
    intro l p cum hasT segs hp hs
    rw [parseLoopF]
    cases hft : findTime l with
    | none =>
      simp only
      exact finishRemaining_durOk l p cum hasT segs hp hs
    | some x =>
      obtain ⟨pre, m, s2, r⟩ := x
      simp only
      have hb := findTime_bounds hft
      have hnew : durOk (some (m * 60 + s2)) := by
        intro d hd
        simp only [Option.some.injEq] at hd
        omega
      split
      · exact ih r _ cum true segs hnew hs
      · apply ih r _ _ true _ hnew
        intro s hmem
        rcases List.mem_append.mp hmem with h1 | h1
        · exact hs s h1
        · simp at h1
          subst h1
          exact hp

/-- C10.  Every duration carried by a parsed segment is at most 6039 seconds:
the grammar allows at most two digits of minutes (≤ 99) and exactly two
digits of seconds (≤ 99), and `99 * 60 + 99 = 6039`. -/
theorem parse_duration_bounded (notes : List Char) :
    ∀ s ∈ (parse_notes_to_segments notes).segments, ∀ d,
      s.duration_seconds = some d → d ≤ 6039 := by
  have h : ∀ t ∈ (parse_notes_to_segments notes).segments,
      durOk t.duration_seconds := by
    simp only [parse_notes_to_segments]
    split
    · intro t ht
      simp at ht
      subst ht
      intro d hd
      simp at hd
    · exact parseLoopF_durOk notes.length notes none 0 false []
        (by intro d hd; simp at hd) (by simp)
  intro s hmem d hd
  exact h s hmem d hd

/-- Witness for C10 at the extreme directive `[time 99:99]`, whose duration
is exactly 6039 seconds. -/
theorem parse_duration_bounded_witness :
    (⟨['x'], some 6039, 0⟩ : TeleprompterSegment) ∈
      (parse_notes_to_segments ("[time 99:99]x".toList)).segments ∧
    6039 ≤ 6039 :=
  ⟨by decide,
    parse_duration_bounded ("[time 99:99]x".toList) ⟨['x'], some 6039, 0⟩
      (by decide) 6039 (by decide)⟩

/-! ## Total duration (C3) -/

theorem filterMap_durations_sum (segs : List TeleprompterSegment)
    (h : ∀ s ∈ segs, s.duration_seconds.isSome = true) :
    (segs.filterMap fun s => s.duration_seconds).sum = durSum segs := by
  induction segs with
  | nil => rfl
  | cons a t ih =>
    have ha := h a (by simp)
    cases hda : a.duration_seconds with
    | none => rw [hda] at ha; simp at ha
    | some v =>
      have ht := ih fun s hs => h s (by simp [hs])
      rw [List.filterMap_cons, hda]
      simp only [List.sum_cons]
      rw [ht]
      simp [durSum, hda]

theorem totalIf_spec (hasT : Bool) (segs : List TeleprompterSegment) :
    ((if hasT && segs.all (fun s => s.duration_seconds.isSome) then
        some (segs.filterMap fun s => s.duration_seconds).sum
      else none).isSome = true ↔
      (hasT = true ∧ ∀ s ∈ segs, s.duration_seconds.isSome = true)) ∧
    (∀ t, (if hasT && segs.all (fun s => s.duration_seconds.isSome) then
        some (segs.filterMap fun s => s.duration_seconds).sum
      else none) = some t → t = durSum segs) := by
  by_cases hc : (hasT && segs.all fun s => s.duration_seconds.isSome) = true
  · rw [Bool.and_eq_true] at hc
    constructor
    · rw [if_pos (Bool.and_eq_true _ _ |>.mpr hc)]
      simp only [Option.isSome_some, true_iff]
      exact ⟨hc.1, fun s hs => List.all_eq_true.mp hc.2 s hs⟩
    · intro t ht
      rw [if_pos (Bool.and_eq_true _ _ |>.mpr hc)] at ht
      simp only [Option.some.injEq] at ht
      subst ht
      exact filterMap_durations_sum segs fun s hs => List.all_eq_true.mp hc.2 s hs
  · constructor
    · rw [if_neg hc]
      simp only [Option.isSome_none, Bool.false_eq_true, false_iff]
      intro ⟨h1, h2⟩
      exact hc (Bool.and_eq_true _ _ |>.mpr ⟨h1, List.all_eq_true.mpr h2⟩)
    · intro t ht
      rw [if_neg hc] at ht
      cases ht

/-- C3.  `total_duration_seconds` is present exactly when a timing directive
was found and every segment carries a duration, and when present it is the
exact sum of all the segments' durations (never a partial sum). -/
theorem parse_total_duration (notes : List Char) :
    ((parse_notes_to_segments notes).total_duration_seconds.isSome = true ↔
      ((parse_notes_to_segments notes).has_timing = true ∧
        ∀ s ∈ (parse_notes_to_segments notes).segments,
          s.duration_seconds.isSome = true)) ∧
    (∀ t, (parse_notes_to_segments notes).total_duration_seconds = some t →
      t = durSum (parse_notes_to_segments notes).segments) := by
  have hrfl : (parse_notes_to_segments notes).total_duration_seconds =
      (if (parse_notes_to_segments notes).has_timing &&
          (parse_notes_to_segments notes).segments.all
            (fun s => s.duration_seconds.isSome) then
        some ((parse_notes_to_segments notes).segments.filterMap
          fun s => s.duration_seconds).sum
      else none) := rfl
  rw [hrfl]
  exact totalIf_spec _ _

/-- Witness for C3 at a concrete fully-timed input: the total is present and
equals the duration sum. -/
theorem parse_total_duration_witness :
    (parse_notes_to_segments ("[time 00:10]a".toList)).total_duration_seconds
      = some 10 ∧
    10 = durSum (parse_notes_to_segments ("[time 00:10]a".toList)).segments :=
  ⟨by decide, (parse_total_duration ("[time 00:10]a".toList)).2 10 (by decide)⟩

/-! ## Segment text non-emptiness (C1) -/

theorem finishRemaining_textNe (l : List Char) (p : Option Nat) (cum : Nat)
    (hasT : Bool) (segs : List TeleprompterSegment)
    (hs : ∀ s ∈ segs, s.text ≠ []) :
    ∀ s ∈ (finishRemaining l p cum hasT segs).1, s.text ≠ [] := by
  simp only [finishRemaining]
  split
  · exact hs
  · rename_i hguard
    intro s hmem
    rcases List.mem_append.mp hmem with h1 | h1
    · exact hs s h1
    · simp at h1
      subst h1
      intro hnil
      apply hguard
      have hcl : clean_text_for_display l = [] := hnil
      rw [hcl]
      rfl

theorem parseLoopF_textNe (fuel : Nat) :
    ∀ (l : List Char) (p : Option Nat) (cum : Nat) (hasT : Bool)
      (segs : List TeleprompterSegment),
      (∀ s ∈ segs, s.text ≠ []) →
      ∀ s ∈ (parseLoopF fuel l p cum hasT segs).1, s.text ≠ [] := by
  induction fuel with
  | zero =>
    intro l p cum hasT segs hs
    exact finishRemaining_textNe l p cum hasT segs hs
  | succ n ih =>
    intro l p cum hasT segs hs
    rw [parseLoopF]
    cases hft : findTime l with
    | none =>
      simp only
      exact finishRemaining_textNe l p cum hasT segs hs
    | some x =>
      obtain ⟨pre, m, s2, r⟩ := x
      simp only
      split
      · exact ih r _ cum true segs hs
      · rename_i hguard
        apply ih
        intro s hmem
        rcases List.mem_append.mp hmem with h1 | h1
        · exact hs s h1
        · simp at h1
          subst h1
          intro hnil
          apply hguard
          have hcl : clean_text_for_display pre = [] := hnil
          rw [hcl]
          rfl

/-- C1 counterexample.  On the input `"[time 00:30]"` — a single timing
directive and nothing else — the fallback path runs even though a directive
was present, and the resulting single segment's text is empty: it is NOT true
that every segment has non-empty text. -/
theorem parse_segment_text_nonempty_counterexample :
    ¬ (∀ s ∈ (parse_notes_to_segments ("[time 00:30]".toList)).segments,
        s.text ≠ []) := by
  decide

/-- C1 (amended).  Every segment the parser emits has non-empty text, except
that the fallback path may emit a single segment with empty text (this
happens exactly for inputs whose cleaned content is empty but which are not
all-whitespace, i.e. inputs made of directives and whitespace only): whenever
a segment's text is empty, the whole output is that one segment
`⟨[], none, 0⟩`. -/
theorem parse_segment_text_nonempty_amended (notes : List Char) :
    ∀ s ∈ (parse_notes_to_segments notes).segments,
      s.text ≠ [] ∨
        (parse_notes_to_segments notes).segments = [⟨[], none, 0⟩] := by
  intro s hmem
  by_cases hfb : ((parseLoopF notes.length notes none 0 false []).1.isEmpty &&
      !(trimWs notes).isEmpty) = true
  · have hseg : (parse_notes_to_segments notes).segments =
        [⟨clean_text_for_display notes, none, 0⟩] := by
      simp only [parse_notes_to_segments]
      rw [if_pos hfb]
    by_cases hcl : clean_text_for_display notes = []
    · right
      rw [hseg, hcl]
    · left
      rw [hseg] at hmem
      simp at hmem
      subst hmem
      exact hcl
  · have hseg : (parse_notes_to_segments notes).segments =
        (parseLoopF notes.length notes none 0 false []).1 := by
      simp only [parse_notes_to_segments]
      rw [if_neg hfb]
    rw [hseg] at hmem
    left
    exact parseLoopF_textNe notes.length notes none 0 false [] (by simp) s hmem

/-- Witness for the amended C1 at the concrete input `"Hi"`. -/
theorem parse_segment_text_nonempty_amended_witness :
    (⟨"Hi".toList, none, 0⟩ : TeleprompterSegment) ∈
      (parse_notes_to_segments ("Hi".toList)).segments ∧
    ("Hi".toList ≠ ([] : List Char) ∨
      (parse_notes_to_segments ("Hi".toList)).segments = [⟨[], none, 0⟩]) :=
  ⟨by decide,
    parse_segment_text_nonempty_amended ("Hi".toList) ⟨"Hi".toList, none, 0⟩
      (by decide)⟩

/-! ## Concrete parses (C4, C5, C9) and the formatter (C7), speed (C8) -/

/-- C4.  The spec's worked example: three segments; the text before the first
directive becomes an untimed segment; the two directives time the following
chunks; the total is absent because segment 0 lacks a duration. -/
theorem parse_spec_example :
    parse_notes_to_segments
      (("Welcome! [time 00:30]\nThis is the first section.\n\n[time 01:00]\n" ++
        "This is the second section.\n[note remember to pause]\n\n" ++
        "No timing here.").toList) =
    ⟨[⟨"Welcome!".toList, none, 0⟩,
      ⟨"This is the first section.".toList, some 30, 0⟩,
      ⟨("This is the second section.\n[note remember to pause]\n\n" ++
        "No timing here.").toList, some 60, 30⟩],
      none, true⟩ := by
  decide

/-- C5.  Back-to-back directives: the second supersedes the first, which
contributes no segment and no time; the single segment gets duration 20 and
start 0, and the total is 20. -/
theorem parse_back_to_back_directives :
    parse_notes_to_segments ("[time 00:10][time 00:20]Text".toList) =
    ⟨[⟨"Text".toList, some 20, 0⟩], some 20, true⟩ := by
  decide

/-- C9.  The whitespace after the literal `time` may be a tab or a line break
just as well as a space: all three inputs parse identically. -/
theorem parse_directive_whitespace_flexible :
    parse_notes_to_segments ("[time\t00:30]Text".toList) =
      ⟨[⟨"Text".toList, some 30, 0⟩], some 30, true⟩ ∧
    parse_notes_to_segments ("[time\n00:30]Text".toList) =
      ⟨[⟨"Text".toList, some 30, 0⟩], some 30, true⟩ ∧
    parse_notes_to_segments ("[time 00:30]Text".toList) =
      ⟨[⟨"Text".toList, some 30, 0⟩], some 30, true⟩ :=
  ⟨by decide, by decide, by decide⟩

theorem dropWhile_length_le (p : Char → Bool) (l : List Char) :
    (l.dropWhile p).length ≤ l.length := by
  induction l with
  | nil => simp
  | cons a t ih =>
    rw [List.dropWhile_cons]
    split
    · exact le_trans ih (by simp)
    · simp

theorem noteMatchFrom_length {l content r : List Char}
    (h : noteMatchFrom l = some (content, r)) : r.length < l.length := by
  rw [noteMatchFrom.eq_def] at h
  split at h
  · rename_i rest
    simp only at h
    split at h
    · simp at h
    · split at h
      · rename_i r3 heq
        have hdw : (rest.dropWhile wsChar).dropWhile (fun c => c ≠ ']') =
            ']' :: r3 := heq
        have h1 : r3.length <
            ((rest.dropWhile wsChar).dropWhile fun c => c ≠ ']').length := by
          rw [hdw]
          simp
        have h2 := dropWhile_length_le (fun c => c ≠ ']') (rest.dropWhile wsChar)
        have h3 := dropWhile_length_le wsChar rest
        have hr : r = r3 := by
          split at h
          · split at h
            · simp only [Option.some.injEq, Prod.mk.injEq] at h
              exact h.2.symm
            · simp at h
          · simp only [Option.some.injEq, Prod.mk.injEq] at h
            exact h.2.symm
        subst hr
        simp only [List.length_cons]
        omega
      · simp at h
  · simp at h

theorem findNote_length : ∀ {l pre content r : List Char},
    findNote l = some (pre, content, r) → r.length < l.length := by
  intro l
  induction l with
  | nil => intro pre content r h; simp [findNote] at h
  | cons c rest ih =>
    intro pre content r h
    rw [findNote] at h
    cases hnm : noteMatchFrom (c :: rest) with
    | some x =>
      obtain ⟨content', r'⟩ := x
      rw [hnm] at h
      simp only [Option.some.injEq, Prod.mk.injEq] at h
      obtain ⟨-, -, hr⟩ := h
      subst hr
      exact noteMatchFrom_length hnm
    | none =>
      rw [hnm] at h
      cases hfn : findNote rest with
      | some y =>
        obtain ⟨pre', content', r'⟩ := y
        rw [hfn] at h
        simp only [Option.some.injEq, Prod.mk.injEq] at h
        obtain ⟨-, -, hr⟩ := h
        subst hr
        have := ih hfn
        simp only [List.length_cons]
        omega
      | none =>
        rw [hfn] at h
        simp at h

theorem formatLoopF_nil (fuel : Nat) : formatLoopF fuel [] = [] := by
  cases fuel
  · rfl
  · simp [formatLoopF, findNote]

theorem formatLoopF_congr : ∀ (n fuel1 fuel2 : Nat) (l : List Char),
    l.length ≤ n → l.length ≤ fuel1 → l.length ≤ fuel2 →
    formatLoopF fuel1 l = formatLoopF fuel2 l := by
  intro n
  induction n with
  | zero =>
    intro f1 f2 l h0 _ _
    have hl : l = [] := List.length_eq_zero.mp (Nat.le_zero.mp h0)
    subst hl
    rw [formatLoopF_nil, formatLoopF_nil]
  | succ n ih =>
    intro f1 f2 l hn h1 h2
    rcases l with _ | ⟨c, t⟩
    · rw [formatLoopF_nil, formatLoopF_nil]
    · rcases f1 with _ | f1
      · simp at h1
      · rcases f2 with _ | f2
        · simp at h2
        · rw [formatLoopF, formatLoopF]
          cases hfn : findNote (c :: t) with
          | none => simp
          | some x =>
            obtain ⟨pre, content, r⟩ := x
            simp only
            have hlen := findNote_length hfn
            simp only [List.length_cons] at hlen h1 h2 hn
            rw [ih f1 f2 r (by omega) (by omega) (by omega)]

/-- One rewriting step of the formatter: at the leftmost marker occurrence,
the text before it passes through, the marker becomes `<note>content</note>`,
and formatting continues on the remainder (matches are consumed left to
right, non-overlapping, and replacement text is never rescanned). -/
theorem format_unfold {l pre content r : List Char}
    (h : findNote l = some (pre, content, r)) :
    format_notes_for_display l =
      pre ++ noteOpen ++ content ++ noteClose ++ format_notes_for_display r := by
  unfold format_notes_for_display
  have hlen := findNote_length h
  rcases l with _ | ⟨c, t⟩
  · simp [findNote] at h
  · simp only [List.length_cons]
    rw [formatLoopF]
    simp only [h]
    have heq : formatLoopF t.length r = formatLoopF r.length r := by
      apply formatLoopF_congr t.length
      · simp only [List.length_cons] at hlen
        omega
      · simp only [List.length_cons] at hlen
        omega
      · exact le_refl _
    rw [heq]

/-- C7.  The formatter wraps each `[note …]` marker in `<note>…</note>` on
the spec's example, leaves a content-less `[note]` untouched, replaces the
leftmost marker occurrence and recurses on the remainder, and passes any
text without a marker occurrence through unchanged. -/
theorem format_notes_spec :
    (format_notes_for_display
        ("Hello [note smile] world [note pause]!".toList) =
      "Hello <note>smile</note> world <note>pause</note>!".toList) ∧
    format_notes_for_display ("[note]".toList) = "[note]".toList ∧
    (∀ l pre content r : List Char, findNote l = some (pre, content, r) →
      format_notes_for_display l =
        pre ++ noteOpen ++ content ++ noteClose ++
          format_notes_for_display r) ∧
    ∀ l : List Char, findNote l = none → format_notes_for_display l = l := by
  refine ⟨by decide, by decide, fun l pre content r h => format_unfold h, ?_⟩
  intro l h
  unfold format_notes_for_display
  rcases hn : l.length with _ | n
  · rfl
  · simp [formatLoopF, h]

/-- Witness for C7's pass-through clause at the concrete input `"abc"`. -/
theorem format_notes_spec_witness :
    format_notes_for_display ("abc".toList) = "abc".toList :=
  format_notes_spec.2.2.2 ("abc".toList) (by decide)

/-- C8.  Scroll speed is height divided by duration when a strictly positive
duration is present, and the default speed when the duration is absent or
zero; the function is total. -/
theorem calculate_scroll_speed_spec (segment_height default_speed : ℚ)
    (duration_seconds : Option Nat) :
    (∀ n, duration_seconds = some n → 0 < n →
      calculate_scroll_speed segment_height duration_seconds default_speed =
        segment_height / (n : ℚ)) ∧
    (duration_seconds = none →
      calculate_scroll_speed segment_height duration_seconds default_speed =
        default_speed) ∧
    (duration_seconds = some 0 →
      calculate_scroll_speed segment_height duration_seconds default_speed =
        default_speed) := by
  refine ⟨?_, ?_, ?_⟩
  · intro n hn hpos
    subst hn
    simp [calculate_scroll_speed, hpos]
  · intro h
    subst h
    rfl
  · intro h
    subst h
    rfl

/-- Witness for C8 at the spec's three examples. -/
theorem calculate_scroll_speed_spec_witness :
    calculate_scroll_speed 300 (some 30) 10 = 300 / (30 : ℚ) ∧
    calculate_scroll_speed 300 none 10 = 10 ∧
    calculate_scroll_speed 300 (some 0) 10 = 10 :=
  ⟨(calculate_scroll_speed_spec 300 10 (some 30)).1 30 rfl (by norm_num),
   (calculate_scroll_speed_spec 300 10 none).2.1 rfl,
   (calculate_scroll_speed_spec 300 10 (some 0)).2.2 rfl⟩
